import Mathlib

/-
Verification of the symbol-resolution engine of cpp-dotenv
(src/src/Parser.cpp).  The engine's own code (dotenv::Parser) is
embedded function by function; the collaborators that live outside the
given source file (the ANTLR listeners, SymbolRecord, the errors module
and setenv) are modelled from the specification, as noted on each
definition.
-/

set_option autoImplicit false

namespace Dotenv

/-- Modelled from the spec: a tokenized occurrence inside a value
string, as produced by the line grammar (`scanOccurrences`), which is an
external collaborator.  A value is literal text interleaved with
variable references (raw source text, referenced key, first-seen
line/column) and escape sequences (raw text plus decoded literal). -/
inductive Tok where
  | lit (s : String)
  | ref (raw : String) (key : String) (line : Nat) (pos : Nat)
  | esc (raw : String) (decoded : String)
  deriving DecidableEq

/-- Modelled from the spec: `SymbolRecord` — one entry per distinct key:
current value, Local/External origin tag, and the count of
not-yet-substituted references (`pendingReferences`). -/
structure SymbolRecord where
  value : List Tok
  isLocal : Bool
  pending : Nat
  deriving DecidableEq

/-- Modelled from the spec: a record is complete iff it has no pending
references (`complete()` in the source). -/
def SymbolRecord.complete (r : SymbolRecord) : Bool :=
  r.pending == 0

/-- Modelled from the spec: `ReferenceRecord` — first-seen location of a
referenced key, kept for diagnostics. -/
structure ReferenceRecord where
  line : Nat
  pos : Nat
  deriving DecidableEq

/-- Diagnostics collected by the errors module (modelled from the spec:
resolution-time errors are collected, not thrown). -/
inductive DotenvError where
  | undefinedVariable (key : String) (line : Nat) (pos : Nat)
  | circularReference (key : String) (line : Nat) (pos : Nat)
  deriving DecidableEq

/-- Failures of the embedded engine: `outOfFuel` marks exhaustion of the
fuel that bounds the (source-level unbounded) resolver loop, and
`atFailure k` models `std::map::at(k)` throwing `std::out_of_range`. -/
inductive PErr where
  | outOfFuel
  | atFailure (key : String)
  deriving DecidableEq

/-- The state of a `dotenv::Parser` object together with the process
environment and the diagnostics sink.  Tables are association lists in
table order. -/
structure PState where
  symbols_table : List (String × SymbolRecord)
  references_table : List (String × ReferenceRecord)
  unresolved : Nat
  errs : List DotenvError
  flushed : List (List DotenvError)
  env : List (String × String)
  deriving DecidableEq

/-- Keys of an association table, in table order. -/
def keys {α : Type} (tbl : List (String × α)) : List String :=
  tbl.map Prod.fst

/-- First-match lookup in an association table (`find` / `at`). -/
def lookupTbl {α : Type} : List (String × α) → String → Option α
  | [], _ => none
  | (k, v) :: t, key => if key = k then some v else lookupTbl t key

/-- Replace the record stored under `k` (value and pending count),
leaving keys and every other entry unchanged: the in-place mutation of a
`std::map` mapped value. -/
def updateRecord (tbl : List (String × SymbolRecord)) (k : String)
    (v : List Tok) (p : Nat) : List (String × SymbolRecord) :=
  tbl.map (fun q => if q.1 = k then (q.1, { q.2 with value := v, pending := p }) else q)

/-- Number of variable-reference occurrences remaining in a value. -/
def countRefs : List Tok → Nat
  | [] => 0
  | .ref _ _ _ _ :: rest => countRefs rest + 1
  | _ :: rest => countRefs rest

/-- Modelled from the spec: `define(key, value, locality,
overwritePolicy)` of the Symbol Table — insert a fresh record (pending
count 0), or on an existing key replace it only when the overwrite
policy allows, otherwise ignore the definition silently. -/
def define (tbl : List (String × SymbolRecord)) (k : String) (v : List Tok)
    (isLoc : Bool) (overwrite : Bool) : List (String × SymbolRecord) :=
  match lookupTbl tbl k with
  | some _ =>
      if overwrite then
        tbl.map (fun q => if q.1 = k then (q.1, ⟨v, isLoc, 0⟩) else q)
      else tbl
  | none => tbl ++ [(k, ⟨v, isLoc, 0⟩)]

/-- `parse_dotenv`: the file-level grammar and SymbolsListener are
collaborators; their net effect (modelled from the spec boundary
`scanDefinitions(source) -> sequence of (key, rawValue, locality)`) is
to `define` each scanned definition into the symbols table. -/
def parse_dotenv (defs : List (String × List Tok × Bool)) (overwrite : Bool)
    (st : PState) : PState :=
  { st with symbols_table :=
      defs.foldl (fun t d => define t d.1 d.2.1 d.2.2 overwrite) st.symbols_table }

/-- Modelled from the spec: the walk of one value by ReferencesListener
(dependency scan, §4.2).  For each reference occurrence to key `k`: if
`k` is absent from the symbols table, report an undefined-variable error
and treat the occurrence as an empty substitution; otherwise keep the
occurrence and record its first-seen location in the reference table.
Returns the rewritten value, the reference table and the error sink. -/
def scanToks (tbl : List (String × SymbolRecord)) :
    List Tok → List (String × ReferenceRecord) → List DotenvError →
    List Tok × List (String × ReferenceRecord) × List DotenvError
  | [], refs, errs => ([], refs, errs)
  | .ref raw k line pos :: rest, refs, errs =>
    match lookupTbl tbl k with
    | none =>
        let out := scanToks tbl rest refs (errs ++ [.undefinedVariable k line pos])
        (.lit "" :: out.1, out.2)
    | some _ =>
        let refs1 :=
          match lookupTbl refs k with
          | some _ => refs
          | none => refs ++ [(k, ⟨line, pos⟩)]
        let out := scanToks tbl rest refs1 errs
        (.ref raw k line pos :: out.1, out.2)
  | t :: rest, refs, errs =>
    let out := scanToks tbl rest refs errs
    (t :: out.1, out.2)

/-- Body of the `parse_line` loop for one symbol: local records are
walked by the dependency scan, their pending count is recomputed from
the remaining occurrences, and a record left incomplete bumps the
global unresolved counter. -/
def scanUpd (st : PState) (k : String) (r : SymbolRecord) : PState :=
  { st with
    symbols_table := updateRecord st.symbols_table k
      (scanToks st.symbols_table r.value st.references_table st.errs).1
      (countRefs (scanToks st.symbols_table r.value st.references_table st.errs).1),
    references_table := (scanToks st.symbols_table r.value st.references_table st.errs).2.1,
    errs := (scanToks st.symbols_table r.value st.references_table st.errs).2.2 }

def scanSymbol (st : PState) (k : String) : PState :=
  match lookupTbl st.symbols_table k with
  | none => st
  | some r =>
    if r.isLocal then
      if countRefs (scanToks st.symbols_table r.value st.references_table st.errs).1 = 0 then
        scanUpd st k r
      else { scanUpd st k r with unresolved := (scanUpd st k r).unresolved + 1 }
    else st

/-- `dotenv::Parser::parse_line`: dependency scan over every symbol in
table order. -/
def parse_line (st : PState) : PState :=
  (keys st.symbols_table).foldl scanSymbol st

/-- Modelled from the spec: the substitution primitive as used by
ResolverListener — each reference whose target record is complete is
replaced in place by the target's current value; a reference whose
target is incomplete (or missing) is left untouched; escapes are left
for the escape expander. -/
def resolveToks (tbl : List (String × SymbolRecord)) : List Tok → List Tok
  | [] => []
  | .ref raw k line pos :: rest =>
    (match lookupTbl tbl k with
     | some tr =>
         if tr.complete then tr.value ++ resolveToks tbl rest
         else .ref raw k line pos :: resolveToks tbl rest
     | none => .ref raw k line pos :: resolveToks tbl rest)
  | t :: rest => t :: resolveToks tbl rest

/-- One resolver sweep (the inner `for` of `resolve_vars`) over a
snapshot of the table's keys: every local, incomplete record is walked
by the substitution primitive; a record that becomes complete decrements
the unresolved counter; when the counter reaches 0 the sweep
short-circuits and the remaining keys are not visited. -/
def sweepStep (st : PState) (k : String) (r : SymbolRecord) : PState :=
  { st with
    symbols_table := updateRecord st.symbols_table k
      (resolveToks st.symbols_table r.value)
      (countRefs (resolveToks st.symbols_table r.value)),
    unresolved := if countRefs (resolveToks st.symbols_table r.value) = 0 then
      st.unresolved - 1 else st.unresolved }

def sweepGo : PState → List String → PState
  | st, [] => st
  | st, k :: rest =>
    match lookupTbl st.symbols_table k with
    | none => sweepGo st rest
    | some r =>
      if r.isLocal && !r.complete then
        if (sweepStep st k r).unresolved = 0 then sweepStep st k r
        else sweepGo (sweepStep st k r) rest
      else sweepGo st rest

/-- `dotenv::Parser::report_unresolved_vars`, inner loop: for every
entry of the reference table, look the key up with the unchecked
`symbols_table.at` (a miss throws, modelled as `.atFailure`), and emit
one CircularReferenceError for each key whose record is still
incomplete, carrying the first-seen location. -/
def reportGo (tbl : List (String × SymbolRecord)) :
    List (String × ReferenceRecord) → List DotenvError →
    Except PErr (List DotenvError)
  | [], errs => .ok errs
  | (k, rr) :: rest, errs =>
    match lookupTbl tbl k with
    | none => .error (.atFailure k)
    | some sr =>
        if !sr.complete then
          reportGo tbl rest (errs ++ [.circularReference k rr.line rr.pos])
        else reportGo tbl rest errs

/-- `dotenv::Parser::report_unresolved_vars`. -/
def report_unresolved_vars (st : PState) : Except PErr PState :=
  match reportGo st.symbols_table st.references_table st.errs with
  | .ok errs' => .ok { st with errs := errs' }
  | .error e => .error e

/-- Modelled from the spec: the substitution primitive with the Cycle
Breaker's relaxed rule (UnresolvedListener) — a reference whose target
is complete is substituted as usual, and a reference whose target is
still incomplete (or missing) is replaced with the empty string. -/
def forceToks (tbl : List (String × SymbolRecord)) : List Tok → List Tok
  | [] => []
  | .ref _ k _ _ :: rest =>
    (match lookupTbl tbl k with
     | some tr =>
         if tr.complete then tr.value ++ forceToks tbl rest
         else forceToks tbl rest
     | none => forceToks tbl rest)
  | t :: rest => t :: forceToks tbl rest

/-- Body of the `resolve_unresolved_vars` loop for one symbol: a local,
incomplete record is force-walked, marked complete (pending count 0),
and the unresolved counter is decremented. -/
def forceSymbol (st : PState) (k : String) : PState :=
  match lookupTbl st.symbols_table k with
  | none => st
  | some r =>
    if r.isLocal && !r.complete then
      { st with
        symbols_table := updateRecord st.symbols_table k (forceToks st.symbols_table r.value) 0,
        unresolved := st.unresolved - 1 }
    else st

/-- `dotenv::Parser::resolve_unresolved_vars`: force-resolve every
still-incomplete local record, in table order. -/
def resolve_unresolved_vars (st : PState) : PState :=
  (keys st.symbols_table).foldl forceSymbol st

/-- The `while (unresolved > 0)` loop of `dotenv::Parser::resolve_vars`,
with explicit fuel bounding the number of iterations: one full sweep per
iteration; a sweep that leaves the unresolved count unchanged (a stall)
triggers the cycle breaker (report, then force-resolve).  The fuel is
proven sufficient below for every state the engine actually reaches. -/
def resolveLoop : Nat → PState → Except PErr PState
  | 0, st => if st.unresolved = 0 then .ok st else .error .outOfFuel
  | fuel + 1, st =>
    if st.unresolved = 0 then .ok st
    else
      if st.unresolved = (sweepGo st (keys st.symbols_table)).unresolved then
        match report_unresolved_vars (sweepGo st (keys st.symbols_table)) with
        | .error e => .error e
        | .ok st2 => resolveLoop fuel (resolve_unresolved_vars st2)
      else resolveLoop fuel (sweepGo st (keys st.symbols_table))

/-- `dotenv::Parser::resolve_vars`. -/
def resolve_vars (st : PState) : Except PErr PState :=
  resolveLoop (st.unresolved + 1) st

/-- Modelled from the spec: the walk of one value by ExpanderListener —
every escape occurrence is replaced by its decoded literal; everything
else is untouched. -/
def expandToks : List Tok → List Tok
  | [] => []
  | .esc _ decoded :: rest => .lit decoded :: expandToks rest
  | t :: rest => t :: expandToks rest

/-- Body of the `expand_escape` loop for one symbol: local records have
their escapes decoded; the pending count is unchanged. -/
def expandSymbol (st : PState) (k : String) : PState :=
  match lookupTbl st.symbols_table k with
  | none => st
  | some r =>
    if r.isLocal then
      { st with symbols_table := updateRecord st.symbols_table k (expandToks r.value) r.pending }
    else st

/-- `dotenv::Parser::expand_escape`: escape expansion over every symbol
in table order. -/
def expand_escape (st : PState) : PState :=
  (keys st.symbols_table).foldl expandSymbol st

/-- Render a token list back to the value string it stands for. -/
def renderTok : Tok → String
  | .lit s => s
  | .ref raw _ _ _ => raw
  | .esc raw _ => raw

/-- Render a whole value. -/
def render (v : List Tok) : String :=
  (v.map renderTok).foldl (fun a s => a ++ s) ""

/-- Modelled from the spec: `setenv(key, value, overwrite)` of the
Environment Publisher — set the variable; when `overwrite` is false and
the variable already exists, leave it untouched. -/
def setenv (k v : String) (overwrite : Bool) (env : List (String × String)) :
    List (String × String) :=
  match lookupTbl env k with
  | some _ =>
      if overwrite then env.map (fun q => if q.1 = k then (q.1, v) else q)
      else env
  | none => env ++ [(k, v)]

/-- `dotenv::Parser::register_env`: every local record is written to the
process environment with `setenv`; external records are skipped. -/
def register_env (overwrite : Bool) (st : PState) : PState :=
  { st with env := st.symbols_table.foldl (fun e q => if q.2.isLocal then setenv q.1 (render q.2.value) overwrite e else e) st.env }

/-- Modelled from the spec: `errors::flush` — the accumulated
diagnostics are emitted to the caller as one batch and the sink is
emptied. -/
def flushErrors (st : PState) : PState :=
  { st with flushed := st.flushed ++ [st.errs], errs := [] }

/-- `dotenv::Parser::parse`: reset the unresolved counter, the symbols
table and the error sink (the reference table is not cleared, exactly as
in the source), scan definitions, then — only when interpolating — run
the dependency scan and the resolver loop; finally expand escapes,
register the environment and flush the diagnostics. -/
def clearState (st : PState) : PState :=
  { st with unresolved := 0, symbols_table := [], errs := [] }

def parse (defs : List (String × List Tok × Bool)) (overwrite interpolate : Bool)
    (st : PState) : Except PErr PState :=
  match (if interpolate then
           resolve_vars (parse_line (parse_dotenv defs overwrite (clearState st)))
         else .ok (parse_dotenv defs overwrite (clearState st))) with
  | .error e => .error e
  | .ok st2 => .ok (flushErrors (register_env overwrite (expand_escape st2)))

/-! ### Association-table lemmas -/

theorem lookupTbl_nil {α : Type} (key : String) :
    lookupTbl ([] : List (String × α)) key = none := rfl

theorem lookupTbl_cons {α : Type} (k : String) (v : α) (t : List (String × α)) (key : String) :
    lookupTbl ((k, v) :: t) key = if key = k then some v else lookupTbl t key := rfl

theorem lookupTbl_eq_none_iff {α : Type} (tbl : List (String × α)) (key : String) :
    lookupTbl tbl key = none ↔ key ∉ keys tbl := by
  induction tbl with
  | nil => simp [lookupTbl, keys]
  | cons q t ih =>
    obtain ⟨k, v⟩ := q
    by_cases h : key = k
    · subst h
      simp [lookupTbl_cons, keys]
    · simp [lookupTbl_cons, h, keys, ih]

theorem lookupTbl_some_mem {α : Type} {tbl : List (String × α)} {key : String} {v : α}
    (h : lookupTbl tbl key = some v) : (key, v) ∈ tbl := by
  induction tbl with
  | nil => simp [lookupTbl] at h
  | cons q t ih =>
    obtain ⟨k, w⟩ := q
    rw [lookupTbl_cons] at h
    by_cases hk : key = k
    · subst hk
      simp at h
      subst h
      exact List.mem_cons_self _ _
    · simp [hk] at h
      exact List.mem_cons_of_mem _ (ih h)

theorem mem_keys_of_lookupTbl_some {α : Type} {tbl : List (String × α)} {key : String} {v : α}
    (h : lookupTbl tbl key = some v) : key ∈ keys tbl := by
  have := lookupTbl_some_mem h
  exact List.mem_map_of_mem Prod.fst this

theorem lookupTbl_isSome_of_mem_keys {α : Type} {tbl : List (String × α)} {key : String}
    (h : key ∈ keys tbl) : ∃ v, lookupTbl tbl key = some v := by
  cases hl : lookupTbl tbl key with
  | none => exact absurd h ((lookupTbl_eq_none_iff tbl key).mp hl)
  | some v => exact ⟨v, rfl⟩

theorem lookupTbl_of_nodup_mem {α : Type} {tbl : List (String × α)} {key : String} {v : α}
    (hnd : (keys tbl).Nodup) (h : (key, v) ∈ tbl) : lookupTbl tbl key = some v := by
  induction tbl with
  | nil => simp at h
  | cons q t ih =>
    obtain ⟨k, w⟩ := q
    simp only [keys, List.map_cons, List.nodup_cons] at hnd
    rcases List.mem_cons.mp h with heq | hmem
    · rw [Prod.mk.injEq] at heq
      rw [lookupTbl_cons, if_pos heq.1, heq.2]
    · have hkey : key ∈ keys t := List.mem_map_of_mem Prod.fst hmem
      have hne : key ≠ k := by
        intro he
        subst he
        exact hnd.1 hkey
      rw [lookupTbl_cons, if_neg hne]
      exact ih hnd.2 hmem

theorem lookupTbl_append {α : Type} (a b : List (String × α)) (key : String) :
    lookupTbl (a ++ b) key =
      match lookupTbl a key with
      | some v => some v
      | none => lookupTbl b key := by
  induction a with
  | nil => simp [lookupTbl]
  | cons q t ih =>
    obtain ⟨k, v⟩ := q
    by_cases h : key = k
    · simp [lookupTbl_cons, h]
    · simpa [lookupTbl_cons, h] using ih

/-! ### updateRecord lemmas -/

theorem updateRecord_cons (a : String) (r : SymbolRecord) (t : List (String × SymbolRecord))
    (k : String) (v : List Tok) (p : Nat) :
    updateRecord ((a, r) :: t) k v p =
      (if a = k then (a, { r with value := v, pending := p }) else (a, r)) :: updateRecord t k v p := by
  simp only [updateRecord, List.map_cons]

theorem keys_updateRecord (tbl : List (String × SymbolRecord)) (k : String)
    (v : List Tok) (p : Nat) : keys (updateRecord tbl k v p) = keys tbl := by
  induction tbl with
  | nil => rfl
  | cons q t ih =>
    obtain ⟨a, r⟩ := q
    rw [updateRecord_cons]
    by_cases h : a = k <;> simp only [if_pos, if_neg, h, if_true, if_false, keys,
      List.map_cons] <;> simp [keys] at ih <;> simp [ih]

theorem lookupTbl_updateRecord_self (tbl : List (String × SymbolRecord)) (k : String)
    (v : List Tok) (p : Nat) :
    lookupTbl (updateRecord tbl k v p) k =
      (lookupTbl tbl k).map (fun r => { r with value := v, pending := p }) := by
  induction tbl with
  | nil => rfl
  | cons q t ih =>
    obtain ⟨a, r⟩ := q
    rw [updateRecord_cons]
    by_cases h : a = k
    · subst h
      simp [lookupTbl_cons]
    · have h' : k ≠ a := fun he => h he.symm
      rw [if_neg h, lookupTbl_cons, if_neg h', lookupTbl_cons, if_neg h']
      exact ih

theorem lookupTbl_updateRecord_ne (tbl : List (String × SymbolRecord)) (k : String)
    (v : List Tok) (p : Nat) (k' : String) (h : k' ≠ k) :
    lookupTbl (updateRecord tbl k v p) k' = lookupTbl tbl k' := by
  induction tbl with
  | nil => rfl
  | cons q t ih =>
    obtain ⟨a, r⟩ := q
    rw [updateRecord_cons]
    by_cases ha : a = k
    · have hk : k' ≠ a := fun he => h (he.trans ha)
      rw [if_pos ha, lookupTbl_cons, lookupTbl_cons, if_neg hk, if_neg hk]
      exact ih
    · rw [if_neg ha]
      by_cases hk : k' = a
      · rw [lookupTbl_cons, lookupTbl_cons, if_pos hk, if_pos hk]
      · rw [lookupTbl_cons, lookupTbl_cons, if_neg hk, if_neg hk]
        exact ih

theorem updateRecord_not_mem (tbl : List (String × SymbolRecord)) (k : String)
    (v : List Tok) (p : Nat) (h : k ∉ keys tbl) : updateRecord tbl k v p = tbl := by
  induction tbl with
  | nil => rfl
  | cons q t ih =>
    obtain ⟨a, r⟩ := q
    simp only [keys, List.map_cons, List.mem_cons, not_or] at h
    have ha : a ≠ k := fun he => h.1 he.symm
    rw [updateRecord_cons, if_neg ha]
    have := ih (by simpa [keys] using h.2)
    rw [this]

/-! ### Counting incomplete local records, and the engine invariants -/

/-- Contribution of one record to the count of incomplete local
records: 1 when the record is local and not complete, else 0. -/
def cIL (r : SymbolRecord) : Nat :=
  if r.isLocal && !r.complete then 1 else 0

/-- Number of incomplete local records of a table. -/
def incompleteLocals : List (String × SymbolRecord) → Nat
  | [] => 0
  | q :: t => cIL q.2 + incompleteLocals t

/-- Number of local records of a table. -/
def countLocals : List (String × SymbolRecord) → Nat
  | [] => 0
  | q :: t => (if q.2.isLocal then 1 else 0) + countLocals t

/-- The engine's counting invariant: the table's keys are distinct (as
in a `std::map`) and the `unresolved` counter equals the number of
incomplete local records. -/
def TableWF (st : PState) : Prop :=
  (keys st.symbols_table).Nodup ∧ st.unresolved = incompleteLocals st.symbols_table

/-- Every key recorded in the reference table names a symbol present in
the symbols table. -/
def RefsInv (st : PState) : Prop :=
  ∀ p ∈ st.references_table, p.1 ∈ keys st.symbols_table

/-- The record stored under `k`, if any, is complete. -/
def completeAt (st : PState) (k : String) : Prop :=
  Option.all (fun r => r.complete) (lookupTbl st.symbols_table k) = true

theorem incompleteLocals_le_countLocals (tbl : List (String × SymbolRecord)) :
    incompleteLocals tbl ≤ countLocals tbl := by
  induction tbl with
  | nil => exact Nat.le_refl 0
  | cons q t ih =>
    have h : cIL q.2 ≤ (if q.2.isLocal then 1 else 0) := by
      unfold cIL
      cases hq : q.2.isLocal
      · simp [hq]
      · simp only [hq, if_true, Bool.true_and]
        split <;> omega
    simpa [incompleteLocals, countLocals] using Nat.add_le_add h ih

theorem incompleteLocals_updateRecord (tbl : List (String × SymbolRecord)) (k : String)
    (v : List Tok) (p : Nat) (r : SymbolRecord) (hnd : (keys tbl).Nodup)
    (hl : lookupTbl tbl k = some r) :
    incompleteLocals (updateRecord tbl k v p) + cIL r
      = incompleteLocals tbl + cIL { r with value := v, pending := p } := by
  induction tbl with
  | nil => simp [lookupTbl] at hl
  | cons q t ih =>
    obtain ⟨a, r₀⟩ := q
    simp only [keys, List.map_cons, List.nodup_cons] at hnd
    rw [updateRecord_cons]
    by_cases hk : k = a
    · subst hk
      rw [lookupTbl_cons, if_pos rfl] at hl
      have hr : r₀ = r := by simpa using hl
      subst hr
      rw [if_pos rfl, updateRecord_not_mem _ _ _ _ (by simpa [keys] using hnd.1)]
      simp only [incompleteLocals]
      omega
    · rw [lookupTbl_cons, if_neg hk] at hl
      have hak : a ≠ k := fun he => hk he.symm
      rw [if_neg hak]
      have := ih (by simpa [keys] using hnd.2) hl
      simp only [incompleteLocals]
      omega

theorem cIL_of_complete {r : SymbolRecord} (h : r.complete = true) : cIL r = 0 := by
  simp [cIL, h]

theorem cIL_of_incomplete_local {r : SymbolRecord} (h1 : r.isLocal = true)
    (h2 : r.complete = false) : cIL r = 1 := by
  simp [cIL, h1, h2]

theorem incompleteLocals_eq_zero (tbl : List (String × SymbolRecord))
    (h : ∀ q ∈ tbl, (q.2.isLocal && !q.2.complete) = false) :
    incompleteLocals tbl = 0 := by
  induction tbl with
  | nil => rfl
  | cons q t ih =>
    have hq := h q (List.mem_cons_self _ _)
    have ht := ih (fun q' hq' => h q' (List.mem_cons_of_mem _ hq'))
    simp [incompleteLocals, cIL, hq, ht]

theorem incompleteLocals_pos (tbl : List (String × SymbolRecord)) (k : String)
    (r : SymbolRecord) (hm : (k, r) ∈ tbl) (h1 : r.isLocal = true)
    (h2 : r.complete = false) : 1 ≤ incompleteLocals tbl := by
  induction tbl with
  | nil => simp at hm
  | cons q t ih =>
    rcases List.mem_cons.mp hm with he | hmem
    · subst he
      simp only [incompleteLocals, cIL_of_incomplete_local h1 h2]
      omega
    · have := ih hmem
      simp only [incompleteLocals]
      omega

/-! ### Resolver sweep lemmas -/

theorem sweepStep_refs (st : PState) (k : String) (r : SymbolRecord) :
    (sweepStep st k r).references_table = st.references_table := rfl

theorem sweepStep_errs (st : PState) (k : String) (r : SymbolRecord) :
    (sweepStep st k r).errs = st.errs := rfl

theorem sweepStep_flushed (st : PState) (k : String) (r : SymbolRecord) :
    (sweepStep st k r).flushed = st.flushed := rfl

theorem sweepStep_env (st : PState) (k : String) (r : SymbolRecord) :
    (sweepStep st k r).env = st.env := rfl

theorem sweepStep_keys (st : PState) (k : String) (r : SymbolRecord) :
    keys (sweepStep st k r).symbols_table = keys st.symbols_table :=
  keys_updateRecord _ _ _ _

theorem sweepStep_unresolved_le (st : PState) (k : String) (r : SymbolRecord) :
    (sweepStep st k r).unresolved ≤ st.unresolved := by
  simp only [sweepStep]
  split <;> omega

theorem cIL_mk (r : SymbolRecord) (hloc : r.isLocal = true) (v : List Tok) (p : Nat) :
    cIL ⟨v, r.isLocal, p⟩ = if p = 0 then 0 else 1 := by
  by_cases hp : p = 0 <;> simp [cIL, SymbolRecord.complete, hp, hloc]

theorem sweepStep_WF (st : PState) (k : String) (r : SymbolRecord)
    (hl : lookupTbl st.symbols_table k = some r) (hloc : r.isLocal = true)
    (hcomp : r.complete = false) (h : TableWF st) : TableWF (sweepStep st k r) := by
  have hIL := incompleteLocals_updateRecord st.symbols_table k
    (resolveToks st.symbols_table r.value)
    (countRefs (resolveToks st.symbols_table r.value)) r h.1 hl
  rw [cIL_of_incomplete_local hloc hcomp] at hIL
  have hmk : ({ r with value := resolveToks st.symbols_table r.value, pending := countRefs (resolveToks st.symbols_table r.value) } : SymbolRecord) = ⟨resolveToks st.symbols_table r.value, r.isLocal, countRefs (resolveToks st.symbols_table r.value)⟩ := rfl
  rw [hmk, cIL_mk r hloc] at hIL
  have hpos : 1 ≤ incompleteLocals st.symbols_table :=
    incompleteLocals_pos _ k r (lookupTbl_some_mem hl) hloc hcomp
  have h2 := h.2
  constructor
  · simpa [sweepStep, keys_updateRecord] using h.1
  · show (if countRefs (resolveToks st.symbols_table r.value) = 0 then
        st.unresolved - 1 else st.unresolved)
      = incompleteLocals (updateRecord st.symbols_table k
        (resolveToks st.symbols_table r.value)
        (countRefs (resolveToks st.symbols_table r.value)))
    by_cases hz : countRefs (resolveToks st.symbols_table r.value) = 0
    · rw [if_pos hz]
      rw [if_pos hz] at hIL
      omega
    · rw [if_neg hz]
      rw [if_neg hz] at hIL
      omega

theorem sweepStep_complete_mono (st : PState) (k : String) (r : SymbolRecord)
    (k₀ : String) (hne : k₀ ≠ k) (h : completeAt st k₀) :
    completeAt (sweepStep st k r) k₀ := by
  rw [completeAt] at h ⊢
  simpa [sweepStep, lookupTbl_updateRecord_ne _ _ _ _ _ hne] using h

theorem sweepGo_frame (ks : List String) (st : PState) :
    (sweepGo st ks).references_table = st.references_table ∧
    (sweepGo st ks).errs = st.errs ∧
    (sweepGo st ks).flushed = st.flushed ∧
    (sweepGo st ks).env = st.env ∧
    keys (sweepGo st ks).symbols_table = keys st.symbols_table := by
  induction ks generalizing st with
  | nil => exact ⟨rfl, rfl, rfl, rfl, rfl⟩
  | cons k rest ih =>
    cases hl : lookupTbl st.symbols_table k with
    | none =>
      simp only [sweepGo, hl]
      exact ih st
    | some r =>
      simp only [sweepGo, hl]
      by_cases hg : (r.isLocal && !r.complete) = true
      · rw [if_pos hg]
        by_cases hz : (sweepStep st k r).unresolved = 0
        · rw [if_pos hz]
          exact ⟨rfl, rfl, rfl, rfl, sweepStep_keys st k r⟩
        · rw [if_neg hz]
          rcases ih (sweepStep st k r) with ⟨h1, h2, h3, h4, h5⟩
          exact ⟨h1, h2, h3, h4, h5.trans (sweepStep_keys st k r)⟩
      · rw [if_neg hg]
        exact ih st

theorem sweepGo_unresolved_le (ks : List String) (st : PState) :
    (sweepGo st ks).unresolved ≤ st.unresolved := by
  induction ks generalizing st with
  | nil => exact Nat.le_refl _
  | cons k rest ih =>
    cases hl : lookupTbl st.symbols_table k with
    | none =>
      simp only [sweepGo, hl]
      exact ih st
    | some r =>
      simp only [sweepGo, hl]
      by_cases hg : (r.isLocal && !r.complete) = true
      · rw [if_pos hg]
        by_cases hz : (sweepStep st k r).unresolved = 0
        · rw [if_pos hz]
          exact sweepStep_unresolved_le st k r
        · rw [if_neg hz]
          exact (ih (sweepStep st k r)).trans (sweepStep_unresolved_le st k r)
      · rw [if_neg hg]
        exact ih st

theorem sweepGo_WF (ks : List String) (st : PState) (h : TableWF st) :
    TableWF (sweepGo st ks) := by
  induction ks generalizing st with
  | nil => exact h
  | cons k rest ih =>
    cases hl : lookupTbl st.symbols_table k with
    | none =>
      simp only [sweepGo, hl]
      exact ih st h
    | some r =>
      simp only [sweepGo, hl]
      by_cases hg : (r.isLocal && !r.complete) = true
      · rcases Bool.and_eq_true_iff.mp hg with ⟨hloc, hcomp⟩
        have hcomp' : r.complete = false := by
          cases hc : r.complete
          · rfl
          · rw [hc] at hcomp
            simp at hcomp
        have hWF' := sweepStep_WF st k r hl hloc hcomp' h
        rw [if_pos hg]
        by_cases hz : (sweepStep st k r).unresolved = 0
        · rw [if_pos hz]
          exact hWF'
        · rw [if_neg hz]
          exact ih _ hWF'
      · rw [if_neg hg]
        exact ih st h

theorem sweepGo_complete_mono (ks : List String) (st : PState) (k₀ : String)
    (h : completeAt st k₀) : completeAt (sweepGo st ks) k₀ := by
  induction ks generalizing st with
  | nil => exact h
  | cons k rest ih =>
    cases hl : lookupTbl st.symbols_table k with
    | none =>
      simp only [sweepGo, hl]
      exact ih st h
    | some r =>
      simp only [sweepGo, hl]
      by_cases hg : (r.isLocal && !r.complete) = true
      · rcases Bool.and_eq_true_iff.mp hg with ⟨_, hcomp⟩
        have hne : k₀ ≠ k := by
          intro he
          subst he
          rw [completeAt, hl] at h
          simp at h
          rw [h] at hcomp
          simp at hcomp
        have hpres := sweepStep_complete_mono st k r k₀ hne h
        rw [if_pos hg]
        by_cases hz : (sweepStep st k r).unresolved = 0
        · rw [if_pos hz]
          exact hpres
        · rw [if_neg hz]
          exact ih _ hpres
      · rw [if_neg hg]
        exact ih st h

theorem bool_eq_false {b : Bool} (h : ¬ b = true) : b = false := by
  cases b
  · rfl
  · exact absurd rfl h

/-! ### Cycle-breaker lemmas -/

/-- The record stored under `k`, if any, is not an incomplete local
record (so the cycle breaker has nothing to do for it). -/
def completeOrExt (st : PState) (k : String) : Prop :=
  ∀ r, lookupTbl st.symbols_table k = some r → (r.isLocal && !r.complete) = false

theorem forceSymbol_frame (st : PState) (k : String) :
    (forceSymbol st k).references_table = st.references_table ∧
    (forceSymbol st k).errs = st.errs ∧
    (forceSymbol st k).flushed = st.flushed ∧
    (forceSymbol st k).env = st.env ∧
    keys (forceSymbol st k).symbols_table = keys st.symbols_table := by
  cases hl : lookupTbl st.symbols_table k with
  | none =>
    simp [forceSymbol, hl]
  | some r =>
    by_cases hg : (r.isLocal && !r.complete) = true
    · simp only [forceSymbol, hl]
      rw [if_pos hg]
      simp [keys_updateRecord]
    · simp only [forceSymbol, hl]
      rw [if_neg hg]
      simp

theorem forceSymbol_WF (st : PState) (k : String) (h : TableWF st) :
    TableWF (forceSymbol st k) := by
  cases hl : lookupTbl st.symbols_table k with
  | none =>
    simp only [forceSymbol, hl]
    exact h
  | some r =>
    simp only [forceSymbol, hl]
    by_cases hg : (r.isLocal && !r.complete) = true
    · rcases Bool.and_eq_true_iff.mp hg with ⟨hloc, hcomp⟩
      have hcomp' : r.complete = false := by
        cases hc : r.complete
        · rfl
        · rw [hc] at hcomp
          simp at hcomp
      rw [if_pos hg]
      have hIL := incompleteLocals_updateRecord st.symbols_table k
        (forceToks st.symbols_table r.value) 0 r h.1 hl
      rw [cIL_of_incomplete_local hloc hcomp'] at hIL
      have hmk : ({ r with value := forceToks st.symbols_table r.value, pending := 0 } : SymbolRecord) = ⟨forceToks st.symbols_table r.value, r.isLocal, 0⟩ := rfl
      rw [hmk, cIL_mk r hloc, if_pos rfl] at hIL
      have hpos : 1 ≤ incompleteLocals st.symbols_table :=
        incompleteLocals_pos _ k r (lookupTbl_some_mem hl) hloc hcomp'
      have h2 := h.2
      constructor
      · simpa [keys_updateRecord] using h.1
      · show st.unresolved - 1 = incompleteLocals (updateRecord st.symbols_table k
          (forceToks st.symbols_table r.value) 0)
        omega
    · rw [if_neg hg]
      exact h

theorem forceSymbol_completeOrExt_self (st : PState) (k : String) :
    completeOrExt (forceSymbol st k) k := by
  cases hl : lookupTbl st.symbols_table k with
  | none =>
    intro r hr
    simp only [forceSymbol, hl] at hr
    simp [hl] at hr
  | some r =>
    by_cases hg : (r.isLocal && !r.complete) = true
    · intro r' hr'
      simp only [forceSymbol, hl, if_pos hg] at hr'
      rw [lookupTbl_updateRecord_self, hl] at hr'
      simp at hr'
      subst hr'
      simp [SymbolRecord.complete]
    · intro r' hr'
      simp only [forceSymbol, hl, if_neg hg] at hr'
      have hr : r = r' := by simpa using hr'
      subst hr
      exact bool_eq_false hg

theorem forceSymbol_completeOrExt_other (st : PState) (k k' : String) (hne : k' ≠ k)
    (h : completeOrExt st k') : completeOrExt (forceSymbol st k) k' := by
  cases hl : lookupTbl st.symbols_table k with
  | none =>
    simp only [forceSymbol, hl]
    exact h
  | some r =>
    simp only [forceSymbol, hl]
    by_cases hg : (r.isLocal && !r.complete) = true
    · rw [if_pos hg]
      intro r' hr'
      rw [lookupTbl_updateRecord_ne _ _ _ _ _ hne] at hr'
      exact h r' hr'
    · rw [if_neg hg]
      exact h

theorem forceGo_zero (ks : List String) (st : PState) (h : TableWF st)
    (hrest : ∀ k, k ∈ keys st.symbols_table → k ∉ ks → completeOrExt st k) :
    (ks.foldl forceSymbol st).unresolved = 0 ∧ TableWF (ks.foldl forceSymbol st) := by
  induction ks generalizing st with
  | nil =>
    refine ⟨?_, h⟩
    have hz : incompleteLocals st.symbols_table = 0 := by
      apply incompleteLocals_eq_zero
      intro q hq
      have hlk := lookupTbl_of_nodup_mem h.1 hq
      exact hrest q.1 (List.mem_map_of_mem Prod.fst hq) (by simp) q.2 hlk
    rw [List.foldl_nil, h.2, hz]
  | cons k₀ rest ih =>
    rw [List.foldl_cons]
    apply ih (forceSymbol st k₀) (forceSymbol_WF st k₀ h)
    intro k hk hkr
    have hkeys := (forceSymbol_frame st k₀).2.2.2.2
    by_cases hke : k = k₀
    · subst hke
      exact forceSymbol_completeOrExt_self st k
    · apply forceSymbol_completeOrExt_other st k₀ k hke
      apply hrest k (by rw [hkeys] at hk; exact hk)
      simp [hke, hkr]

theorem forceGo_frame (ks : List String) (st : PState) :
    ((ks.foldl forceSymbol st).references_table = st.references_table ∧
     (ks.foldl forceSymbol st).errs = st.errs) ∧
    ((ks.foldl forceSymbol st).flushed = st.flushed ∧
     (ks.foldl forceSymbol st).env = st.env) ∧
    keys (ks.foldl forceSymbol st).symbols_table = keys st.symbols_table := by
  induction ks generalizing st with
  | nil => exact ⟨⟨rfl, rfl⟩, ⟨rfl, rfl⟩, rfl⟩
  | cons k₀ rest ih =>
    rw [List.foldl_cons]
    rcases ih (forceSymbol st k₀) with ⟨⟨h1, h2⟩, ⟨h3, h4⟩, h5⟩
    rcases forceSymbol_frame st k₀ with ⟨g1, g2, g3, g4, g5⟩
    exact ⟨⟨h1.trans g1, h2.trans g2⟩, ⟨h3.trans g3, h4.trans g4⟩, h5.trans g5⟩

theorem resolve_unresolved_vars_zero (st : PState) (h : TableWF st) :
    (resolve_unresolved_vars st).unresolved = 0 ∧
    TableWF (resolve_unresolved_vars st) := by
  apply forceGo_zero
  · exact h
  · intro k hk hnk
    exact absurd hk hnk

/-! ### Report lemmas -/

/-- The diagnostic emitted for one reference-table entry: a
CircularReferenceError when the referenced record is still incomplete,
nothing otherwise. -/
def circOne (tbl : List (String × SymbolRecord)) (p : String × ReferenceRecord) :
    Option DotenvError :=
  match lookupTbl tbl p.1 with
  | some sr => if !sr.complete then some (.circularReference p.1 p.2.line p.2.pos) else none
  | none => none

/-- All diagnostics the cycle breaker emits for a reference table, in
table order: exactly one per entry whose record is still incomplete. -/
def circList (tbl : List (String × SymbolRecord))
    (refs : List (String × ReferenceRecord)) : List DotenvError :=
  refs.filterMap (circOne tbl)

theorem reportGo_ok (tbl : List (String × SymbolRecord))
    (refs : List (String × ReferenceRecord)) (errs : List DotenvError)
    (h : ∀ p ∈ refs, p.1 ∈ keys tbl) :
    reportGo tbl refs errs = .ok (errs ++ circList tbl refs) := by
  induction refs generalizing errs with
  | nil => simp [reportGo, circList]
  | cons p rest ih =>
    obtain ⟨k, rr⟩ := p
    rcases lookupTbl_isSome_of_mem_keys (h (k, rr) (List.mem_cons_self _ _)) with ⟨sr, hsr⟩
    have hrest : ∀ p ∈ rest, p.1 ∈ keys tbl :=
      fun p hp => h p (List.mem_cons_of_mem _ hp)
    simp only [reportGo, hsr]
    by_cases hc : (!sr.complete) = true
    · rw [if_pos hc, ih _ hrest]
      simp [circList, circOne, hsr, hc]
    · rw [if_neg hc, ih _ hrest]
      have hc' : (!sr.complete) = false := by
        cases hb : (!sr.complete)
        · rfl
        · exact absurd hb hc
      simp [circList, circOne, hsr, hc']

theorem report_ok (st : PState) (h : RefsInv st) :
    report_unresolved_vars st =
      .ok { st with errs := st.errs ++ circList st.symbols_table st.references_table } := by
  rw [report_unresolved_vars, reportGo_ok _ _ _ h]

theorem reportGo_error_atFailure (tbl : List (String × SymbolRecord)) :
    ∀ (refs : List (String × ReferenceRecord)) (errs : List DotenvError) (e : PErr),
    reportGo tbl refs errs = .error e → ∃ k, e = .atFailure k := by
  intro refs
  induction refs with
  | nil =>
    intro errs e h
    simp [reportGo] at h
  | cons p rest ih =>
    intro errs e h
    obtain ⟨k, rr⟩ := p
    cases hl : lookupTbl tbl k with
    | none =>
      simp only [reportGo, hl] at h
      exact ⟨k, by simpa using h.symm⟩
    | some sr =>
      simp only [reportGo, hl] at h
      by_cases hc : (!sr.complete) = true
      · rw [if_pos hc] at h
        exact ih _ _ h
      · rw [if_neg hc] at h
        exact ih _ _ h

theorem report_error_atFailure (st : PState) (e : PErr)
    (h : report_unresolved_vars st = .error e) : ∃ k, e = .atFailure k := by
  rw [report_unresolved_vars] at h
  cases hr : reportGo st.symbols_table st.references_table st.errs with
  | ok errs' =>
    rw [hr] at h
    simp at h
  | error e' =>
    rw [hr] at h
    simp at h
    subst h
    exact reportGo_error_atFailure _ _ _ _ hr

theorem report_ok_shape (st st' : PState)
    (h : report_unresolved_vars st = .ok st') :
    ∃ errs', st' = { st with errs := errs' } := by
  rw [report_unresolved_vars] at h
  cases hr : reportGo st.symbols_table st.references_table st.errs with
  | ok errs' =>
    rw [hr] at h
    simp at h
    exact ⟨errs', h.symm⟩
  | error e' =>
    rw [hr] at h
    simp at h

/-! ### Resolver loop lemmas -/

theorem resolveLoop_ok (fuel : Nat) :
    ∀ st : PState, TableWF st → RefsInv st → st.unresolved < fuel →
    ∃ st', resolveLoop fuel st = .ok st' ∧ st'.unresolved = 0 ∧
      st'.flushed = st.flushed ∧ st'.env = st.env := by
  induction fuel with
  | zero =>
    intro st _ _ hlt
    exact absurd hlt (Nat.not_lt_zero _)
  | succ fuel ih =>
    intro st hWF hRefs hlt
    by_cases hz : st.unresolved = 0
    · exact ⟨st, by rw [resolveLoop, if_pos hz], hz, rfl, rfl⟩
    · have hWF1 : TableWF (sweepGo st (keys st.symbols_table)) :=
        sweepGo_WF _ _ hWF
      have hframe := sweepGo_frame (keys st.symbols_table) st
      have hRefs1 : RefsInv (sweepGo st (keys st.symbols_table)) := by
        intro p hp
        rw [hframe.1] at hp
        rw [hframe.2.2.2.2]
        exact hRefs p hp
      by_cases hstall : st.unresolved = (sweepGo st (keys st.symbols_table)).unresolved
      · have hrep := report_ok _ hRefs1
        have hfuelpos : 0 < fuel := by omega
        have hWF2 : TableWF ({ sweepGo st (keys st.symbols_table) with
            errs := (sweepGo st (keys st.symbols_table)).errs ++
              circList (sweepGo st (keys st.symbols_table)).symbols_table
                (sweepGo st (keys st.symbols_table)).references_table } : PState) := hWF1
        have hzero := resolve_unresolved_vars_zero _ hWF2
        have hRefs3 : RefsInv (resolve_unresolved_vars
            ({ sweepGo st (keys st.symbols_table) with
              errs := (sweepGo st (keys st.symbols_table)).errs ++
                circList (sweepGo st (keys st.symbols_table)).symbols_table
                  (sweepGo st (keys st.symbols_table)).references_table } : PState)) := by
          intro p hp
          rw [resolve_unresolved_vars] at hp ⊢
          rw [(forceGo_frame _ _).1.1] at hp
          rw [(forceGo_frame _ _).2.2]
          exact hRefs1 p hp
        rcases ih _ hzero.2 hRefs3 (by omega) with ⟨st', hst', h0, hfl, henv⟩
        refine ⟨st', ?_, h0, ?_, ?_⟩
        · rw [resolveLoop, if_neg hz, if_pos hstall, hrep]
          exact hst'
        · rw [hfl, resolve_unresolved_vars, (forceGo_frame _ _).2.1.1]
          exact hframe.2.2.1
        · rw [henv, resolve_unresolved_vars, (forceGo_frame _ _).2.1.2]
          exact hframe.2.2.2.1
      · have hle := sweepGo_unresolved_le (keys st.symbols_table) st
        rcases ih _ hWF1 hRefs1 (by omega) with ⟨st', hst', h0, hfl, henv⟩
        refine ⟨st', ?_, h0, ?_, ?_⟩
        · rw [resolveLoop, if_neg hz, if_neg hstall]
          exact hst'
        · rw [hfl]
          exact hframe.2.2.1
        · rw [henv]
          exact hframe.2.2.2.1

theorem resolveLoop_no_outOfFuel (fuel : Nat) :
    ∀ st : PState, TableWF st → st.unresolved < fuel →
    resolveLoop fuel st ≠ .error .outOfFuel := by
  induction fuel with
  | zero =>
    intro st _ hlt
    exact absurd hlt (Nat.not_lt_zero _)
  | succ fuel ih =>
    intro st hWF hlt
    by_cases hz : st.unresolved = 0
    · rw [resolveLoop, if_pos hz]
      simp
    · have hWF1 : TableWF (sweepGo st (keys st.symbols_table)) :=
        sweepGo_WF _ _ hWF
      by_cases hstall : st.unresolved = (sweepGo st (keys st.symbols_table)).unresolved
      · rw [resolveLoop, if_neg hz, if_pos hstall]
        cases hrep : report_unresolved_vars (sweepGo st (keys st.symbols_table)) with
        | error e =>
          rcases report_error_atFailure _ _ hrep with ⟨k, hk⟩
          subst hk
          simp
        | ok st2 =>
          rcases report_ok_shape _ _ hrep with ⟨errs', hshape⟩
          have hWF2 : TableWF st2 := by
            rw [hshape]
            exact hWF1
          have hzero := resolve_unresolved_vars_zero st2 hWF2
          have hfuelpos : 0 < fuel := by omega
          exact ih _ hzero.2 (by omega)
      · have hle := sweepGo_unresolved_le (keys st.symbols_table) st
        rw [resolveLoop, if_neg hz, if_neg hstall]
        exact ih _ hWF1 (by omega)

/-! ### Dependency-scan lemmas -/

theorem scanToks_refs_mem (tbl : List (String × SymbolRecord)) :
    ∀ (toks : List Tok) (refs : List (String × ReferenceRecord))
      (errs : List DotenvError) (p : String × ReferenceRecord),
    p ∈ (scanToks tbl toks refs errs).2.1 → p ∈ refs ∨ p.1 ∈ keys tbl := by
  intro toks
  induction toks with
  | nil =>
    intro refs errs p hp
    exact Or.inl hp
  | cons t rest ih =>
    intro refs errs p hp
    cases t with
    | lit s =>
      simp only [scanToks] at hp
      exact ih refs errs p hp
    | esc raw decoded =>
      simp only [scanToks] at hp
      exact ih refs errs p hp
    | ref raw k line pos =>
      cases hl : lookupTbl tbl k with
      | none =>
        simp only [scanToks, hl] at hp
        exact ih refs _ p hp
      | some sr =>
        cases hrl : lookupTbl refs k with
        | some rr =>
          simp only [scanToks, hl, hrl] at hp
          exact ih refs errs p hp
        | none =>
          simp only [scanToks, hl, hrl] at hp
          rcases ih _ errs p hp with hmem | hk
          · rcases List.mem_append.mp hmem with hold | hnew
            · exact Or.inl hold
            · right
              have : p = (k, ⟨line, pos⟩) := by simpa using hnew
              rw [this]
              exact mem_keys_of_lookupTbl_some hl
          · exact Or.inr hk

theorem scanUpd_keys (st : PState) (k : String) (r : SymbolRecord) :
    keys (scanUpd st k r).symbols_table = keys st.symbols_table :=
  keys_updateRecord _ _ _ _

theorem scanSymbol_keys (st : PState) (k : String) :
    keys (scanSymbol st k).symbols_table = keys st.symbols_table := by
  cases hl : lookupTbl st.symbols_table k with
  | none => simp only [scanSymbol, hl]
  | some r =>
    simp only [scanSymbol, hl]
    by_cases hloc : r.isLocal = true
    · rw [if_pos hloc]
      by_cases hz : countRefs (scanToks st.symbols_table r.value st.references_table st.errs).1 = 0
      · rw [if_pos hz]
        exact scanUpd_keys st k r
      · rw [if_neg hz]
        exact scanUpd_keys st k r
    · rw [if_neg hloc]

theorem scanSymbol_env_flushed (st : PState) (k : String) :
    (scanSymbol st k).env = st.env ∧ (scanSymbol st k).flushed = st.flushed := by
  cases hl : lookupTbl st.symbols_table k with
  | none =>
    simp [scanSymbol, hl]
  | some r =>
    simp only [scanSymbol, hl]
    by_cases hloc : r.isLocal = true
    · rw [if_pos hloc]
      by_cases hz : countRefs (scanToks st.symbols_table r.value st.references_table st.errs).1 = 0
      · rw [if_pos hz]
        exact ⟨rfl, rfl⟩
      · rw [if_neg hz]
        exact ⟨rfl, rfl⟩
    · rw [if_neg hloc]
      exact ⟨rfl, rfl⟩

theorem scanUpd_RefsInv (st : PState) (k : String) (r : SymbolRecord)
    (h : RefsInv st) : RefsInv (scanUpd st k r) := by
  intro p hp
  have hp' : p ∈ (scanToks st.symbols_table r.value st.references_table st.errs).2.1 := hp
  have hkeys : keys (scanUpd st k r).symbols_table = keys st.symbols_table :=
    scanUpd_keys st k r
  rw [hkeys]
  rcases scanToks_refs_mem st.symbols_table r.value st.references_table st.errs p hp' with
    hold | hk
  · exact h p hold
  · exact hk

theorem scanSymbol_RefsInv (st : PState) (k : String) (h : RefsInv st) :
    RefsInv (scanSymbol st k) := by
  cases hl : lookupTbl st.symbols_table k with
  | none =>
    simp only [scanSymbol, hl]
    exact h
  | some r =>
    simp only [scanSymbol, hl]
    by_cases hloc : r.isLocal = true
    · rw [if_pos hloc]
      by_cases hz : countRefs (scanToks st.symbols_table r.value st.references_table st.errs).1 = 0
      · rw [if_pos hz]
        exact scanUpd_RefsInv st k r h
      · rw [if_neg hz]
        exact scanUpd_RefsInv st k r h
    · rw [if_neg hloc]
      exact h

theorem scanSymbol_lookup_ne (st : PState) (k k' : String) (hne : k' ≠ k) :
    lookupTbl (scanSymbol st k).symbols_table k' = lookupTbl st.symbols_table k' := by
  cases hl : lookupTbl st.symbols_table k with
  | none => simp only [scanSymbol, hl]
  | some r =>
    simp only [scanSymbol, hl]
    by_cases hloc : r.isLocal = true
    · rw [if_pos hloc]
      by_cases hz : countRefs (scanToks st.symbols_table r.value st.references_table st.errs).1 = 0
      · rw [if_pos hz]
        exact lookupTbl_updateRecord_ne _ _ _ _ _ hne
      · rw [if_neg hz]
        exact lookupTbl_updateRecord_ne _ _ _ _ _ hne
    · rw [if_neg hloc]

theorem scanSymbol_WF (st : PState) (k : String) (hWF : TableWF st)
    (hp0 : ∀ r, lookupTbl st.symbols_table k = some r → r.pending = 0) :
    TableWF (scanSymbol st k) := by
  cases hl : lookupTbl st.symbols_table k with
  | none =>
    simp only [scanSymbol, hl]
    exact hWF
  | some r =>
    simp only [scanSymbol, hl]
    by_cases hloc : r.isLocal = true
    · rw [if_pos hloc]
      have hpend : r.pending = 0 := hp0 r hl
      have hcomp : r.complete = true := by
        rw [SymbolRecord.complete, hpend]
        rfl
      have hIL := incompleteLocals_updateRecord st.symbols_table k
        (scanToks st.symbols_table r.value st.references_table st.errs).1
        (countRefs (scanToks st.symbols_table r.value st.references_table st.errs).1)
        r hWF.1 hl
      rw [cIL_of_complete hcomp] at hIL
      have hmk : ({ r with value := (scanToks st.symbols_table r.value st.references_table st.errs).1, pending := countRefs (scanToks st.symbols_table r.value st.references_table st.errs).1 } : SymbolRecord) = ⟨(scanToks st.symbols_table r.value st.references_table st.errs).1, r.isLocal, countRefs (scanToks st.symbols_table r.value st.references_table st.errs).1⟩ := rfl
      rw [hmk, cIL_mk r hloc] at hIL
      have h2 := hWF.2
      by_cases hz : countRefs (scanToks st.symbols_table r.value st.references_table st.errs).1 = 0
      · rw [if_pos hz]
        rw [if_pos hz] at hIL
        constructor
        · have := scanUpd_keys st k r
          rw [this]
          exact hWF.1
        · show st.unresolved = incompleteLocals (updateRecord st.symbols_table k
            (scanToks st.symbols_table r.value st.references_table st.errs).1
            (countRefs (scanToks st.symbols_table r.value st.references_table st.errs).1))
          omega
      · rw [if_neg hz]
        rw [if_neg hz] at hIL
        constructor
        · have := scanUpd_keys st k r
          show (keys (scanUpd st k r).symbols_table).Nodup
          rw [this]
          exact hWF.1
        · show (scanUpd st k r).unresolved + 1 = incompleteLocals (scanUpd st k r).symbols_table
          show st.unresolved + 1 = incompleteLocals (updateRecord st.symbols_table k
            (scanToks st.symbols_table r.value st.references_table st.errs).1
            (countRefs (scanToks st.symbols_table r.value st.references_table st.errs).1))
          omega
    · rw [if_neg hloc]
      exact hWF

theorem scanFold_WF (ks : List String) :
    ∀ st : PState, TableWF st → ks.Nodup →
    (∀ k ∈ ks, ∀ r, lookupTbl st.symbols_table k = some r → r.pending = 0) →
    TableWF (ks.foldl scanSymbol st) := by
  induction ks with
  | nil =>
    intro st hWF _ _
    exact hWF
  | cons k₀ rest ih =>
    intro st hWF hnd hp0
    rw [List.foldl_cons]
    rcases List.nodup_cons.mp hnd with ⟨hk₀, hnd'⟩
    apply ih _ (scanSymbol_WF st k₀ hWF (hp0 k₀ (List.mem_cons_self _ _))) hnd'
    intro k hk r hr
    have hne : k ≠ k₀ := fun he => hk₀ (he ▸ hk)
    rw [scanSymbol_lookup_ne st k₀ k hne] at hr
    exact hp0 k (List.mem_cons_of_mem _ hk) r hr

theorem scanFold_RefsInv (ks : List String) :
    ∀ st : PState, RefsInv st → RefsInv (ks.foldl scanSymbol st) := by
  induction ks with
  | nil =>
    intro st h
    exact h
  | cons k₀ rest ih =>
    intro st h
    rw [List.foldl_cons]
    exact ih _ (scanSymbol_RefsInv st k₀ h)

theorem scanFold_env_flushed (ks : List String) :
    ∀ st : PState, (ks.foldl scanSymbol st).env = st.env ∧
      (ks.foldl scanSymbol st).flushed = st.flushed := by
  induction ks with
  | nil =>
    intro st
    exact ⟨rfl, rfl⟩
  | cons k₀ rest ih =>
    intro st
    rw [List.foldl_cons]
    rcases ih (scanSymbol st k₀) with ⟨h1, h2⟩
    rcases scanSymbol_env_flushed st k₀ with ⟨g1, g2⟩
    exact ⟨h1.trans g1, h2.trans g2⟩

/-! ### Symbol-table definition lemmas -/

theorem keys_map_fst_preserving (f : (String × SymbolRecord) → (String × SymbolRecord))
    (hf : ∀ q, (f q).1 = q.1) (tbl : List (String × SymbolRecord)) :
    keys (tbl.map f) = keys tbl := by
  induction tbl with
  | nil => rfl
  | cons q t ih =>
    simp only [keys, List.map_cons] at ih ⊢
    rw [hf q, ih]

theorem define_nodup (tbl : List (String × SymbolRecord)) (k : String) (v : List Tok)
    (isLoc overwrite : Bool) (h : (keys tbl).Nodup) :
    (keys (define tbl k v isLoc overwrite)).Nodup := by
  rw [define]
  cases hl : lookupTbl tbl k with
  | none =>
    have hk : k ∉ keys tbl := (lookupTbl_eq_none_iff tbl k).mp hl
    have hkeys : keys (tbl ++ [(k, (⟨v, isLoc, 0⟩ : SymbolRecord))]) = keys tbl ++ [k] := by
      simp [keys]
    rw [hkeys]
    have hperm : (keys tbl ++ [k]).Perm (k :: keys tbl) := List.perm_append_singleton k _
    exact hperm.nodup_iff.mpr (List.nodup_cons.mpr ⟨hk, h⟩)
  | some r =>
    by_cases how : overwrite = true
    · rw [if_pos how]
      rw [keys_map_fst_preserving _ ?_]
      · exact h
      · intro q
        by_cases hq : q.1 = k
        · rw [if_pos hq]
        · rw [if_neg hq]
    · rw [if_neg how]
      exact h

theorem define_pending0 (tbl : List (String × SymbolRecord)) (k : String) (v : List Tok)
    (isLoc overwrite : Bool) (h : ∀ q ∈ tbl, q.2.pending = 0) :
    ∀ q ∈ define tbl k v isLoc overwrite, q.2.pending = 0 := by
  rw [define]
  cases hl : lookupTbl tbl k with
  | none =>
    intro q hq
    rcases List.mem_append.mp hq with hold | hnew
    · exact h q hold
    · have : q = (k, (⟨v, isLoc, 0⟩ : SymbolRecord)) := by simpa using hnew
      rw [this]
  | some r =>
    by_cases how : overwrite = true
    · rw [if_pos how]
      intro q hq
      rcases List.mem_map.mp hq with ⟨q₀, hq₀, hfq⟩
      by_cases hqk : q₀.1 = k
      · rw [if_pos hqk] at hfq
        rw [← hfq]
      · rw [if_neg hqk] at hfq
        rw [← hfq]
        exact h q₀ hq₀
    · rw [if_neg how]
      exact h

theorem dotenvFold_nodup (defs : List (String × List Tok × Bool)) (overwrite : Bool) :
    ∀ tbl : List (String × SymbolRecord), (keys tbl).Nodup →
    (keys (defs.foldl (fun t d => define t d.1 d.2.1 d.2.2 overwrite) tbl)).Nodup := by
  induction defs with
  | nil =>
    intro tbl h
    exact h
  | cons d rest ih =>
    intro tbl h
    rw [List.foldl_cons]
    exact ih _ (define_nodup tbl d.1 d.2.1 d.2.2 overwrite h)

theorem dotenvFold_pending0 (defs : List (String × List Tok × Bool)) (overwrite : Bool) :
    ∀ tbl : List (String × SymbolRecord), (∀ q ∈ tbl, q.2.pending = 0) →
    ∀ q ∈ defs.foldl (fun t d => define t d.1 d.2.1 d.2.2 overwrite) tbl, q.2.pending = 0 := by
  induction defs with
  | nil =>
    intro tbl h
    exact h
  | cons d rest ih =>
    intro tbl h
    rw [List.foldl_cons]
    exact ih _ (define_pending0 tbl d.1 d.2.1 d.2.2 overwrite h)

theorem incompleteLocals_zero_of_pending0 (tbl : List (String × SymbolRecord))
    (h : ∀ q ∈ tbl, q.2.pending = 0) : incompleteLocals tbl = 0 := by
  apply incompleteLocals_eq_zero
  intro q hq
  have hp := h q hq
  have hc : q.2.complete = true := by
    rw [SymbolRecord.complete, hp]
    rfl
  rw [hc]
  simp

/-! ### Escape-expansion lemmas -/

/-- Effect of `expand_escape` on a single record: local records get
their escapes decoded, external records are untouched. -/
def expandRec (r : SymbolRecord) : SymbolRecord :=
  if r.isLocal then { r with value := expandToks r.value } else r

theorem expandSymbol_lookup_self (st : PState) (k : String) :
    lookupTbl (expandSymbol st k).symbols_table k =
      (lookupTbl st.symbols_table k).map expandRec := by
  cases hl : lookupTbl st.symbols_table k with
  | none => simp only [expandSymbol, hl, Option.map_none']
  | some r =>
    simp only [expandSymbol, hl, Option.map_some']
    by_cases hloc : r.isLocal = true
    · rw [if_pos hloc]
      show lookupTbl (updateRecord st.symbols_table k (expandToks r.value) r.pending) k
        = some (expandRec r)
      rw [lookupTbl_updateRecord_self, hl, Option.map_some']
      rw [expandRec, if_pos hloc]
    · rw [if_neg hloc, hl]
      rw [expandRec, if_neg hloc]

theorem expandSymbol_lookup_ne (st : PState) (k k' : String) (hne : k' ≠ k) :
    lookupTbl (expandSymbol st k).symbols_table k' = lookupTbl st.symbols_table k' := by
  cases hl : lookupTbl st.symbols_table k with
  | none => simp only [expandSymbol, hl]
  | some r =>
    simp only [expandSymbol, hl]
    by_cases hloc : r.isLocal = true
    · rw [if_pos hloc]
      exact lookupTbl_updateRecord_ne _ _ _ _ _ hne
    · rw [if_neg hloc]

theorem expandSymbol_frame (st : PState) (k : String) :
    (expandSymbol st k).references_table = st.references_table ∧
    (expandSymbol st k).errs = st.errs ∧
    (expandSymbol st k).flushed = st.flushed ∧
    (expandSymbol st k).env = st.env ∧
    (expandSymbol st k).unresolved = st.unresolved ∧
    keys (expandSymbol st k).symbols_table = keys st.symbols_table := by
  cases hl : lookupTbl st.symbols_table k with
  | none => simp [expandSymbol, hl]
  | some r =>
    simp only [expandSymbol, hl]
    by_cases hloc : r.isLocal = true
    · rw [if_pos hloc]
      refine ⟨rfl, rfl, rfl, rfl, rfl, ?_⟩
      exact keys_updateRecord _ _ _ _
    · rw [if_neg hloc]
      exact ⟨rfl, rfl, rfl, rfl, rfl, rfl⟩

theorem expandFold_lookup (ks : List String) :
    ∀ st : PState, ks.Nodup →
    (∀ k, k ∉ ks → lookupTbl (ks.foldl expandSymbol st).symbols_table k
      = lookupTbl st.symbols_table k) ∧
    (∀ k ∈ ks, lookupTbl (ks.foldl expandSymbol st).symbols_table k
      = (lookupTbl st.symbols_table k).map expandRec) := by
  induction ks with
  | nil =>
    intro st _
    exact ⟨fun _ _ => rfl, fun k hk => absurd hk (List.not_mem_nil k)⟩
  | cons k₀ rest ih =>
    intro st hnd
    rcases List.nodup_cons.mp hnd with ⟨hk₀, hnd'⟩
    rcases ih (expandSymbol st k₀) hnd' with ⟨hnotin, hin⟩
    rw [List.foldl_cons]
    constructor
    · intro k hk
      have hkr : k ∉ rest := fun hm => hk (List.mem_cons_of_mem _ hm)
      have hne : k ≠ k₀ := fun he => hk (he ▸ List.mem_cons_self _ _)
      rw [hnotin k hkr]
      exact expandSymbol_lookup_ne st k₀ k hne
    · intro k hk
      rcases List.mem_cons.mp hk with he | hm
      · subst he
        rw [hnotin k hk₀]
        exact expandSymbol_lookup_self st k
      · have hne : k ≠ k₀ := fun he => hk₀ (he ▸ hm)
        rw [hin k hm]
        rw [expandSymbol_lookup_ne st k₀ k hne]

theorem expandFold_frame (ks : List String) :
    ∀ st : PState,
    (ks.foldl expandSymbol st).references_table = st.references_table ∧
    (ks.foldl expandSymbol st).errs = st.errs ∧
    (ks.foldl expandSymbol st).flushed = st.flushed ∧
    (ks.foldl expandSymbol st).env = st.env ∧
    (ks.foldl expandSymbol st).unresolved = st.unresolved := by
  induction ks with
  | nil =>
    intro st
    exact ⟨rfl, rfl, rfl, rfl, rfl⟩
  | cons k₀ rest ih =>
    intro st
    rw [List.foldl_cons]
    rcases ih (expandSymbol st k₀) with ⟨h1, h2, h3, h4, h5⟩
    rcases expandSymbol_frame st k₀ with ⟨g1, g2, g3, g4, g5, _⟩
    exact ⟨h1.trans g1, h2.trans g2, h3.trans g3, h4.trans g4, h5.trans g5⟩

theorem expand_escape_lookup (st : PState) (hnd : (keys st.symbols_table).Nodup)
    (k : String) (r : SymbolRecord) (hl : lookupTbl st.symbols_table k = some r) :
    lookupTbl (expand_escape st).symbols_table k = some (expandRec r) := by
  have hk : k ∈ keys st.symbols_table := mem_keys_of_lookupTbl_some hl
  have := ((expandFold_lookup (keys st.symbols_table) st hnd).2) k hk
  rw [expand_escape, this, hl, Option.map_some']

/-! ### Environment-registration lemmas -/

theorem lookupTbl_map_set_self (env : List (String × String)) (k v : String) :
    lookupTbl (env.map (fun q => if q.1 = k then (q.1, v) else q)) k
      = (lookupTbl env k).map (fun _ => v) := by
  induction env with
  | nil => rfl
  | cons q t ih =>
    obtain ⟨a, w⟩ := q
    by_cases ha : a = k
    · subst ha
      simp [lookupTbl_cons]
    · have hk : k ≠ a := fun he => ha he.symm
      simp only [List.map_cons, if_neg ha]
      rw [lookupTbl_cons, if_neg hk, lookupTbl_cons, if_neg hk]
      exact ih

theorem lookupTbl_map_set_ne (env : List (String × String)) (k v k' : String)
    (hne : k' ≠ k) :
    lookupTbl (env.map (fun q => if q.1 = k then (q.1, v) else q)) k'
      = lookupTbl env k' := by
  induction env with
  | nil => rfl
  | cons q t ih =>
    obtain ⟨a, w⟩ := q
    by_cases ha : a = k
    · subst ha
      simp [lookupTbl_cons, hne, ih]
    · simp only [List.map_cons, if_neg ha]
      by_cases hk : k' = a
      · rw [lookupTbl_cons, lookupTbl_cons, if_pos hk, if_pos hk]
      · rw [lookupTbl_cons, lookupTbl_cons, if_neg hk, if_neg hk]
        exact ih

theorem setenv_self (k v : String) (overwrite : Bool) (env : List (String × String)) :
    lookupTbl (setenv k v overwrite env) k =
      match lookupTbl env k with
      | none => some v
      | some w => if overwrite then some v else some w := by
  rw [setenv]
  cases hl : lookupTbl env k with
  | none =>
    rw [lookupTbl_append, hl]
    simp [lookupTbl_cons]
  | some w =>
    by_cases how : overwrite = true
    · rw [if_pos how, lookupTbl_map_set_self, hl, Option.map_some']
      simp [how]
    · rw [if_neg how, hl]
      have : overwrite = false := bool_eq_false how
      simp [this]

theorem setenv_ne (k v : String) (overwrite : Bool) (env : List (String × String))
    (k' : String) (hne : k' ≠ k) :
    lookupTbl (setenv k v overwrite env) k' = lookupTbl env k' := by
  rw [setenv]
  cases hl : lookupTbl env k with
  | none =>
    rw [lookupTbl_append]
    cases hl' : lookupTbl env k' with
    | some w => rfl
    | none =>
      rw [lookupTbl_cons, if_neg hne]
      rfl
  | some w =>
    by_cases how : overwrite = true
    · rw [if_pos how]
      exact lookupTbl_map_set_ne env k v k' hne
    · rw [if_neg how]

theorem regFold_not_mem (overwrite : Bool) (tbl : List (String × SymbolRecord)) :
    ∀ (env : List (String × String)) (k : String), k ∉ keys tbl →
    lookupTbl (tbl.foldl (fun e q => if q.2.isLocal then setenv q.1 (render q.2.value) overwrite e else e) env) k
      = lookupTbl env k := by
  induction tbl with
  | nil =>
    intro env k _
    rfl
  | cons q t ih =>
    intro env k hk
    obtain ⟨k₀, r₀⟩ := q
    simp only [keys, List.map_cons, List.mem_cons, not_or] at hk
    rw [List.foldl_cons]
    by_cases hloc : r₀.isLocal = true
    · simp only [if_pos hloc]
      rw [ih _ k (by simpa [keys] using hk.2)]
      exact setenv_ne k₀ (render r₀.value) overwrite env k hk.1
    · simp only [if_neg hloc]
      exact ih _ k (by simpa [keys] using hk.2)

theorem regFold_local (overwrite : Bool) (tbl : List (String × SymbolRecord)) :
    ∀ env : List (String × String), (keys tbl).Nodup →
    ∀ (k : String) (r : SymbolRecord), lookupTbl tbl k = some r → r.isLocal = true →
    lookupTbl (tbl.foldl (fun e q => if q.2.isLocal then setenv q.1 (render q.2.value) overwrite e else e) env) k
      = (match lookupTbl env k with
         | none => some (render r.value)
         | some w => if overwrite then some (render r.value) else some w) := by
  induction tbl with
  | nil =>
    intro env _ k r hl _
    simp [lookupTbl] at hl
  | cons q t ih =>
    intro env hnd k r hl hloc
    obtain ⟨k₀, r₀⟩ := q
    simp only [keys, List.map_cons, List.nodup_cons] at hnd
    rw [List.foldl_cons]
    by_cases hk : k = k₀
    · subst hk
      rw [lookupTbl_cons, if_pos rfl] at hl
      have hr : r₀ = r := by simpa using hl
      subst hr
      simp only [if_pos hloc]
      rw [regFold_not_mem overwrite t _ k (by simpa [keys] using hnd.1)]
      exact setenv_self k (render r₀.value) overwrite env
    · rw [lookupTbl_cons, if_neg hk] at hl
      by_cases hloc₀ : r₀.isLocal = true
      · simp only [if_pos hloc₀]
        rw [ih _ (by simpa [keys] using hnd.2) k r hl hloc]
        rw [setenv_ne k₀ (render r₀.value) overwrite env k hk]
      · simp only [if_neg hloc₀]
        exact ih _ (by simpa [keys] using hnd.2) k r hl hloc

theorem regFold_external (overwrite : Bool) (tbl : List (String × SymbolRecord)) :
    ∀ env : List (String × String), (keys tbl).Nodup →
    ∀ k : String, (∀ r, lookupTbl tbl k = some r → r.isLocal = false) →
    lookupTbl (tbl.foldl (fun e q => if q.2.isLocal then setenv q.1 (render q.2.value) overwrite e else e) env) k
      = lookupTbl env k := by
  induction tbl with
  | nil =>
    intro env _ k _
    rfl
  | cons q t ih =>
    intro env hnd k hext
    obtain ⟨k₀, r₀⟩ := q
    simp only [keys, List.map_cons, List.nodup_cons] at hnd
    rw [List.foldl_cons]
    by_cases hk : k = k₀
    · subst hk
      have hr₀ : r₀.isLocal = false := by
        apply hext r₀
        rw [lookupTbl_cons, if_pos rfl]
      simp only [hr₀]
      rw [if_neg (by simp [hr₀])]
      exact regFold_not_mem overwrite t env k (by simpa [keys] using hnd.1)
    · have hext' : ∀ r, lookupTbl t k = some r → r.isLocal = false := by
        intro r hr
        apply hext r
        rw [lookupTbl_cons, if_neg hk]
        exact hr
      by_cases hloc₀ : r₀.isLocal = true
      · simp only [if_pos hloc₀]
        rw [ih _ (by simpa [keys] using hnd.2) k hext']
        exact setenv_ne k₀ (render r₀.value) overwrite env k hk
      · simp only [if_neg hloc₀]
        exact ih _ (by simpa [keys] using hnd.2) k hext'

/-! ### Parse-level glue lemmas -/

theorem parse_setup (defs : List (String × List Tok × Bool)) (overwrite : Bool)
    (st : PState) :
    TableWF (parse_dotenv defs overwrite (clearState st)) ∧
    (∀ q ∈ (parse_dotenv defs overwrite (clearState st)).symbols_table, q.2.pending = 0) := by
  have hp0 : ∀ q ∈ (parse_dotenv defs overwrite (clearState st)).symbols_table,
      q.2.pending = 0 := by
    rw [parse_dotenv]
    exact dotenvFold_pending0 defs overwrite [] (by simp)
  refine ⟨⟨?_, ?_⟩, hp0⟩
  · rw [parse_dotenv]
    exact dotenvFold_nodup defs overwrite [] (by simp [keys])
  · show (0 : Nat) = incompleteLocals (parse_dotenv defs overwrite (clearState st)).symbols_table
    rw [incompleteLocals_zero_of_pending0 _ hp0]

theorem parse_line_WF (st : PState) (hWF : TableWF st)
    (hp0 : ∀ q ∈ st.symbols_table, q.2.pending = 0) : TableWF (parse_line st) := by
  rw [parse_line]
  apply scanFold_WF _ st hWF hWF.1
  intro k _ r hr
  exact hp0 (k, r) (lookupTbl_some_mem hr)

theorem parse_line_RefsInv (st : PState) (h : RefsInv st) : RefsInv (parse_line st) := by
  rw [parse_line]
  exact scanFold_RefsInv _ st h

theorem parse_line_env_flushed (st : PState) :
    (parse_line st).env = st.env ∧ (parse_line st).flushed = st.flushed := by
  rw [parse_line]
  exact scanFold_env_flushed _ st

instance instDecidableTableWF (st : PState) : Decidable (TableWF st) :=
  decidable_of_iff ((keys st.symbols_table).Nodup ∧
    st.unresolved = incompleteLocals st.symbols_table) Iff.rfl

instance instDecidableRefsInv (st : PState) : Decidable (RefsInv st) :=
  decidable_of_iff (∀ p ∈ st.references_table, p.1 ∈ keys st.symbols_table) Iff.rfl

instance instDecidableCompleteAt (st : PState) (k : String) :
    Decidable (completeAt st k) :=
  decidable_of_iff
    (Option.all (fun r => r.complete) (lookupTbl st.symbols_table k) = true) Iff.rfl

/-! ### Claim theorems -/

/-- C1: for every input source — including malformed and cyclic ones —
and every starting parser state, a call to `parse` terminates: the
resolver loop never exhausts its fuel bound, because each non-stalling
sweep strictly decreases the unresolved count and a stalling sweep
triggers the cycle breaker, which forces the count to 0.  (A call can
still end in an `atFailure` exception on a stale reference table, but
that too is termination.) -/
theorem c1_parse_terminates (defs : List (String × List Tok × Bool))
    (overwrite interpolate : Bool) (st : PState) :
    parse defs overwrite interpolate st ≠ .error .outOfFuel := by
  rw [parse]
  by_cases hip : interpolate = true
  · rw [if_pos hip]
    have hsetup := parse_setup defs overwrite st
    have hWF1 := parse_line_WF _ hsetup.1 hsetup.2
    cases hres : resolve_vars (parse_line (parse_dotenv defs overwrite (clearState st))) with
    | error e =>
      simp only [hres]
      intro hcontra
      have he : e = PErr.outOfFuel := by simpa using hcontra
      subst he
      rw [resolve_vars] at hres
      exact resolveLoop_no_outOfFuel _ _ hWF1 (Nat.lt_succ_self _) hres
    | ok st2 =>
      simp only [hres]
      simp
  · rw [if_neg hip]
    simp

/-- C5: with `interpolate == false` the dependency scan, the resolver
loop and the cycle breaker are skipped entirely: the reference table is
left untouched, no diagnostic is produced (the flushed batch is empty),
while escape expansion and environment registration still run on the
raw scanned values. -/
theorem c5_no_interpolation_skips_resolution (defs : List (String × List Tok × Bool))
    (overwrite : Bool) (st : PState) :
    ∃ st', parse defs overwrite false st = .ok st' ∧
      st'.references_table = st.references_table ∧
      st'.errs = [] ∧
      st'.flushed = st.flushed ++ [[]] ∧
      st'.symbols_table =
        (expand_escape (parse_dotenv defs overwrite (clearState st))).symbols_table ∧
      st'.env =
        (register_env overwrite (expand_escape (parse_dotenv defs overwrite (clearState st)))).env := by
  refine ⟨flushErrors (register_env overwrite
    (expand_escape (parse_dotenv defs overwrite (clearState st)))), rfl, ?_, rfl, ?_, rfl, rfl⟩
  · show (expand_escape (parse_dotenv defs overwrite (clearState st))).references_table
      = st.references_table
    rw [expand_escape]
    exact (expandFold_frame _ _).1
  · show (expand_escape (parse_dotenv defs overwrite (clearState st))).flushed ++
      [(expand_escape (parse_dotenv defs overwrite (clearState st))).errs]
      = st.flushed ++ [[]]
    have h1 : (expand_escape (parse_dotenv defs overwrite (clearState st))).flushed
        = st.flushed := by
      rw [expand_escape]
      exact (expandFold_frame _ _).2.2.1
    have h2 : (expand_escape (parse_dotenv defs overwrite (clearState st))).errs
        = ([] : List DotenvError) := by
      rw [expand_escape]
      exact (expandFold_frame _ _).2.1
    rw [h1, h2]

/-- C9 (amended): provided the call starts with an empty reference
table — as on a freshly constructed parser, since `parse` does not clear
that table — no resolution-time error aborts the parse: the call returns
normally (escape expansion and environment registration run to
completion) and the accumulated diagnostics are surfaced to the caller
as exactly one batch, flushed at the end of the call, leaving the sink
empty. -/
theorem c9_errors_collected_not_fatal (defs : List (String × List Tok × Bool))
    (overwrite interpolate : Bool) (st : PState) (h : st.references_table = []) :
    ∃ st' batch, parse defs overwrite interpolate st = .ok st' ∧
      st'.flushed = st.flushed ++ [batch] ∧ st'.errs = [] := by
  rw [parse]
  by_cases hip : interpolate = true
  · rw [if_pos hip]
    have hsetup := parse_setup defs overwrite st
    have hWF1 := parse_line_WF _ hsetup.1 hsetup.2
    have hRefsX : RefsInv (parse_dotenv defs overwrite (clearState st)) := by
      intro p hp
      have hp' : p ∈ st.references_table := hp
      rw [h] at hp'
      simp at hp'
    have hRefs1 := parse_line_RefsInv _ hRefsX
    rcases resolveLoop_ok _ _ hWF1 hRefs1 (Nat.lt_succ_self _) with ⟨st2, hst2, _, hfl, _⟩
    have hres : resolve_vars (parse_line (parse_dotenv defs overwrite (clearState st)))
        = .ok st2 := by
      rw [resolve_vars]
      exact hst2
    refine ⟨flushErrors (register_env overwrite (expand_escape st2)), st2.errs, ?_, ?_, rfl⟩
    · rw [hres]
    · show (expand_escape st2).flushed ++ [(expand_escape st2).errs]
        = st.flushed ++ [st2.errs]
      have h1 : (expand_escape st2).flushed = st2.flushed := by
        rw [expand_escape]
        exact (expandFold_frame _ _).2.2.1
      have h2 : (expand_escape st2).errs = st2.errs := by
        rw [expand_escape]
        exact (expandFold_frame _ _).2.1
      rw [h1, h2, hfl, (parse_line_env_flushed _).2]
      rfl
  · rw [if_neg hip]
    refine ⟨flushErrors (register_env overwrite
      (expand_escape (parse_dotenv defs overwrite (clearState st)))), [], rfl, ?_, rfl⟩
    show (expand_escape (parse_dotenv defs overwrite (clearState st))).flushed ++
      [(expand_escape (parse_dotenv defs overwrite (clearState st))).errs]
      = st.flushed ++ [[]]
    have h1 : (expand_escape (parse_dotenv defs overwrite (clearState st))).flushed
        = st.flushed := by
      rw [expand_escape]
      exact (expandFold_frame _ _).2.2.1
    have h2 : (expand_escape (parse_dotenv defs overwrite (clearState st))).errs
        = ([] : List DotenvError) := by
      rw [expand_escape]
      exact (expandFold_frame _ _).2.1
    rw [h1, h2]

theorem c9_errors_collected_not_fatal_witness :
    (⟨[], [], 0, [], [], []⟩ : PState).references_table = [] ∧
    ∃ st' batch,
      parse [("A", ([Tok.ref "${B}" "B" 1 3], true))] true true
        (⟨[], [], 0, [], [], []⟩ : PState) = .ok st' ∧
      st'.flushed = (⟨[], [], 0, [], [], []⟩ : PState).flushed ++ [batch] ∧
      st'.errs = [] :=
  ⟨rfl, c9_errors_collected_not_fatal
    [("A", ([Tok.ref "${B}" "B" 1 3], true))] true true
    (⟨[], [], 0, [], [], []⟩ : PState) rfl⟩

/-- C9 counterexample: the claim as stated ("every parse call runs
escape expansion and environment registration to completion") fails on
a reused parser object — the stale reference table makes the second
call abort with the modelled `std::map::at` out-of-range failure before
expansion, registration or the flush. -/
theorem c9_counterexample :
    (match parse [("A", ([Tok.ref "${B}" "B" 1 3], true)),
                  ("B", ([Tok.ref "${A}" "A" 2 3], true))] true true
        (⟨[], [], 0, [], [], []⟩ : PState) with
     | .ok st₁ => parse [("C", ([Tok.ref "${C}" "C" 1 3], true))] true true st₁
     | .error e => .error e) = .error (.atFailure "B") := by rfl

/-- C2: whenever a full resolver sweep leaves the unresolved count
unchanged and still positive (a stall), the cycle breaker runs:
`report_unresolved_vars` succeeds and appends exactly one
CircularReferenceError per reference-table entry whose record is still
incomplete (carrying the entry's first-seen line/column, which is what
`circList` computes entry by entry — with distinct reference-table keys,
one per key), and the following `resolve_unresolved_vars` pass forces
the unresolved count to 0. -/
theorem c2_stall_runs_cycle_breaker (st : PState) (hWF : TableWF st)
    (hRefs : RefsInv st) (_hndr : (keys st.references_table).Nodup)
    (_hpos : st.unresolved ≠ 0)
    (_hstall : (sweepGo st (keys st.symbols_table)).unresolved = st.unresolved) :
    report_unresolved_vars (sweepGo st (keys st.symbols_table)) =
      .ok { sweepGo st (keys st.symbols_table) with
        errs := (sweepGo st (keys st.symbols_table)).errs ++
          circList (sweepGo st (keys st.symbols_table)).symbols_table
            (sweepGo st (keys st.symbols_table)).references_table } ∧
    (resolve_unresolved_vars { sweepGo st (keys st.symbols_table) with
        errs := (sweepGo st (keys st.symbols_table)).errs ++
          circList (sweepGo st (keys st.symbols_table)).symbols_table
            (sweepGo st (keys st.symbols_table)).references_table }).unresolved = 0 := by
  have hframe := sweepGo_frame (keys st.symbols_table) st
  have hWF1 := sweepGo_WF (keys st.symbols_table) st hWF
  have hRefs1 : RefsInv (sweepGo st (keys st.symbols_table)) := by
    intro p hp
    rw [hframe.1] at hp
    rw [hframe.2.2.2.2]
    exact hRefs p hp
  constructor
  · exact report_ok _ hRefs1
  · have hWF2 : TableWF ({ sweepGo st (keys st.symbols_table) with
        errs := (sweepGo st (keys st.symbols_table)).errs ++
          circList (sweepGo st (keys st.symbols_table)).symbols_table
            (sweepGo st (keys st.symbols_table)).references_table } : PState) := hWF1
    exact (resolve_unresolved_vars_zero _ hWF2).1

/-- Concrete two-key circular input, already scanned: both records
incomplete, unresolved count 2. -/
def c2state : PState :=
  ⟨[("A", ⟨[Tok.ref "${B}" "B" 1 3], true, 1⟩), ("B", ⟨[Tok.ref "${A}" "A" 2 3], true, 1⟩)],
   [("B", ⟨1, 3⟩), ("A", ⟨2, 3⟩)], 2, [], [], []⟩

theorem c2_stall_runs_cycle_breaker_witness :
    report_unresolved_vars (sweepGo c2state (keys c2state.symbols_table)) =
      .ok { sweepGo c2state (keys c2state.symbols_table) with
        errs := (sweepGo c2state (keys c2state.symbols_table)).errs ++
          circList (sweepGo c2state (keys c2state.symbols_table)).symbols_table
            (sweepGo c2state (keys c2state.symbols_table)).references_table } ∧
    (resolve_unresolved_vars { sweepGo c2state (keys c2state.symbols_table) with
        errs := (sweepGo c2state (keys c2state.symbols_table)).errs ++
          circList (sweepGo c2state (keys c2state.symbols_table)).symbols_table
            (sweepGo c2state (keys c2state.symbols_table)).references_table }).unresolved = 0 :=
  c2_stall_runs_cycle_breaker c2state (by decide) (by decide) (by decide)
    (by decide) (by decide)

/-- C4: resolution is monotonic — a record that is complete stays
complete across any resolver sweep, a sweep never increases the
unresolved count, and (via the counting invariant) the resolver loop
reaches unresolved count 0 within fuel bounded by the number of local
records plus one, i.e. in at most as many sweeps as there are local
records before the final check. -/
theorem c4_resolution_monotonic (st : PState) (ks : List String) (k : String) :
    (completeAt st k → completeAt (sweepGo st ks) k) ∧
    (sweepGo st ks).unresolved ≤ st.unresolved ∧
    (TableWF st → RefsInv st →
      ∃ st', resolveLoop (countLocals st.symbols_table + 1) st = .ok st' ∧
        st'.unresolved = 0) := by
  refine ⟨sweepGo_complete_mono ks st k, sweepGo_unresolved_le ks st, ?_⟩
  intro hWF hRefs
  have hlt : st.unresolved < countLocals st.symbols_table + 1 := by
    have h1 := incompleteLocals_le_countLocals st.symbols_table
    have h2 := hWF.2
    omega
  rcases resolveLoop_ok _ st hWF hRefs hlt with ⟨st', h1, h2, _, _⟩
  exact ⟨st', h1, h2⟩

/-- Concrete scanned table: X complete, Y waiting on X. -/
def c4state : PState :=
  ⟨[("X", ⟨[Tok.lit "x"], true, 0⟩), ("Y", ⟨[Tok.ref "${X}" "X" 1 1], true, 1⟩)],
   [("X", ⟨1, 1⟩)], 1, [], [], []⟩

theorem c4_resolution_monotonic_witness :
    completeAt (sweepGo c4state ["X", "Y"]) "X" ∧
    (sweepGo c4state ["X", "Y"]).unresolved ≤ c4state.unresolved ∧
    (∃ st', resolveLoop (countLocals c4state.symbols_table + 1) c4state = .ok st' ∧
      st'.unresolved = 0) :=
  ⟨(c4_resolution_monotonic c4state ["X", "Y"] "X").1 (by decide),
   (c4_resolution_monotonic c4state ["X", "Y"] "X").2.1,
   (c4_resolution_monotonic c4state ["X", "Y"] "X").2.2 (by decide) (by decide)⟩

/-- C6: within one resolver sweep, once processing a local, incomplete
record brings the unresolved count to 0, the sweep stops early: the
result over `k :: rest` equals the result over `[k]` alone, for every
`rest` — no later record is re-walked. -/
theorem c6_sweep_short_circuits (st : PState) (k : String) (r : SymbolRecord)
    (hl : lookupTbl st.symbols_table k = some r) (hloc : r.isLocal = true)
    (hcomp : r.complete = false) (hz : (sweepGo st [k]).unresolved = 0)
    (rest : List String) :
    sweepGo st (k :: rest) = sweepGo st [k] := by
  have hg : (r.isLocal && !r.complete) = true := by
    rw [hloc, hcomp]
    rfl
  have h1 : sweepGo st [k] = sweepStep st k r := by
    simp only [sweepGo, hl]
    rw [if_pos hg]
    by_cases hz' : (sweepStep st k r).unresolved = 0
    · rw [if_pos hz']
    · rw [if_neg hz']
  have hz' : (sweepStep st k r).unresolved = 0 := h1 ▸ hz
  have h2 : sweepGo st (k :: rest) = sweepStep st k r := by
    simp only [sweepGo, hl]
    rw [if_pos hg, if_pos hz']
  rw [h2, h1]

/-- Concrete table where the first record completes and zeroes the
counter. -/
def c6state : PState :=
  ⟨[("P", ⟨[Tok.ref "${Q}" "Q" 1 1], true, 1⟩), ("Q", ⟨[Tok.lit "q"], true, 0⟩)],
   [("Q", ⟨1, 1⟩)], 1, [], [], []⟩

theorem c6_sweep_short_circuits_witness :
    sweepGo c6state ("P" :: ["Q"]) = sweepGo c6state ["P"] :=
  c6_sweep_short_circuits c6state "P" ⟨[Tok.ref "${Q}" "Q" 1 1], true, 1⟩
    (by decide) (by decide) (by decide) (by decide) ["Q"]

/-- C7: escape expansion (which `parse` runs once, after resolution)
touches every local record and only local records — each local record's
value is mapped through the escape-decoding walk, every external
record's value is unchanged by `expand_escape`, and the expander has no
other effect (reference table, error sink and environment untouched). -/
theorem c7_expander_local_only (st : PState) (hnd : (keys st.symbols_table).Nodup) :
    (∀ k r, lookupTbl st.symbols_table k = some r →
      lookupTbl (expand_escape st).symbols_table k =
        some (if r.isLocal then { r with value := expandToks r.value } else r)) ∧
    (expand_escape st).references_table = st.references_table ∧
    (expand_escape st).errs = st.errs ∧
    (expand_escape st).env = st.env := by
  refine ⟨?_, ?_, ?_, ?_⟩
  · intro k r hl
    have h := expand_escape_lookup st hnd k r hl
    rw [h, expandRec]
  · rw [expand_escape]
    exact (expandFold_frame _ _).1
  · rw [expand_escape]
    exact (expandFold_frame _ _).2.1
  · rw [expand_escape]
    exact (expandFold_frame _ _).2.2.2.1

/-- Concrete table with one local record holding an escape and one
external record holding a reference. -/
def c7state : PState :=
  ⟨[("L", ⟨[Tok.esc "\\n" "\n"], true, 0⟩), ("E", ⟨[Tok.ref "${L}" "L" 1 1], false, 0⟩)],
   [], 0, [], [], [("HOME", "/root")]⟩

theorem c7_expander_local_only_witness :
    lookupTbl (expand_escape c7state).symbols_table "E" =
      some (if (⟨[Tok.ref "${L}" "L" 1 1], false, 0⟩ : SymbolRecord).isLocal then
        { (⟨[Tok.ref "${L}" "L" 1 1], false, 0⟩ : SymbolRecord) with
          value := expandToks (⟨[Tok.ref "${L}" "L" 1 1], false, 0⟩ : SymbolRecord).value }
      else ⟨[Tok.ref "${L}" "L" 1 1], false, 0⟩) ∧
    (expand_escape c7state).env = c7state.env :=
  ⟨(c7_expander_local_only c7state (by decide)).1 "E" ⟨[Tok.ref "${L}" "L" 1 1], false, 0⟩
    (by decide),
   (c7_expander_local_only c7state (by decide)).2.2.2⟩

/-- C8: environment registration writes exactly the local records — a
key whose record is not local (or absent) leaves the environment
unchanged at that key, and a key with a local record is set to the
render of its final value, honoring the overwrite flag against the
pre-existing environment. -/
theorem c8_register_local_only (overwrite : Bool) (st : PState)
    (hnd : (keys st.symbols_table).Nodup) :
    (∀ k, Option.all (fun r => !r.isLocal) (lookupTbl st.symbols_table k) = true →
      lookupTbl (register_env overwrite st).env k = lookupTbl st.env k) ∧
    (∀ k r, lookupTbl st.symbols_table k = some r → r.isLocal = true →
      lookupTbl (register_env overwrite st).env k =
        (match lookupTbl st.env k with
         | none => some (render r.value)
         | some w => if overwrite then some (render r.value) else some w)) := by
  constructor
  · intro k hext
    show lookupTbl (st.symbols_table.foldl
      (fun e q => if q.2.isLocal then setenv q.1 (render q.2.value) overwrite e else e)
      st.env) k = lookupTbl st.env k
    apply regFold_external overwrite st.symbols_table st.env hnd k
    intro r hr
    rw [hr] at hext
    simpa using hext
  · intro k r hl hloc
    show lookupTbl (st.symbols_table.foldl
      (fun e q => if q.2.isLocal then setenv q.1 (render q.2.value) overwrite e else e)
      st.env) k =
      (match lookupTbl st.env k with
       | none => some (render r.value)
       | some w => if overwrite then some (render r.value) else some w)
    exact regFold_local overwrite st.symbols_table st.env hnd k r hl hloc

/-- Concrete table with one local and one external record over an
environment that already holds both keys. -/
def c8state : PState :=
  ⟨[("L", ⟨[Tok.lit "v1"], true, 0⟩), ("E", ⟨[Tok.lit "w"], false, 0⟩)],
   [], 0, [], [], [("E", "old"), ("L", "old")]⟩

theorem c8_register_local_only_witness :
    (lookupTbl (register_env false c8state).env "E" = lookupTbl c8state.env "E") ∧
    (lookupTbl (register_env false c8state).env "L" =
      (match lookupTbl c8state.env "L" with
       | none => some (render (⟨[Tok.lit "v1"], true, 0⟩ : SymbolRecord).value)
       | some w => if false then some (render (⟨[Tok.lit "v1"], true, 0⟩ : SymbolRecord).value)
         else some w)) :=
  ⟨(c8_register_local_only false c8state (by decide)).1 "E" (by decide),
   (c8_register_local_only false c8state (by decide)).2 "L"
     ⟨[Tok.lit "v1"], true, 0⟩ (by decide) (by decide)⟩

/-- C10: `report_unresolved_vars` looks every reference-table key up
with the unchecked `symbols_table.at`; under the invariant that every
reference-table key names a symbol present in the symbols table the
failure branch is unreachable (the call returns ok), and the dependency
scan preserves that invariant (it only records references to keys it
found in the table). -/
theorem c10_report_at_safe (st : PState) :
    (RefsInv st → ∃ st', report_unresolved_vars st = .ok st') ∧
    (RefsInv st → RefsInv (parse_line st)) :=
  ⟨fun h => ⟨_, report_ok st h⟩, fun h => parse_line_RefsInv st h⟩

/-- Concrete state whose reference table points only at existing
symbols. -/
def c10state : PState :=
  ⟨[("A", ⟨[Tok.ref "${B}" "B" 1 3], true, 1⟩), ("B", ⟨[Tok.ref "${A}" "A" 2 3], true, 1⟩)],
   [("B", ⟨1, 3⟩), ("A", ⟨2, 3⟩)], 2, [], [], []⟩

theorem c10_report_at_safe_witness :
    RefsInv c10state ∧ ∃ st', report_unresolved_vars c10state = .ok st' :=
  ⟨by decide, (c10_report_at_safe c10state).1 (by decide)⟩

/-- C3 (code bug): `parse` resets the unresolved counter, the symbols
table and the error sink, but never clears the reference table — so
state observable through one parse call does depend on the previous
call.  Concretely: after parsing a two-key cycle, the reference table
still holds both stale entries, and a second parse call on the same
parser aborts with the modelled `std::map::at` out-of-range failure
when its own stall makes `report_unresolved_vars` look the stale key
"B" up in the fresh symbols table. -/
theorem c3_reference_table_not_reset :
    ∃ st₁ : PState,
      parse [("A", ([Tok.ref "${B}" "B" 1 3], true)), ("B", ([Tok.ref "${A}" "A" 2 3], true))]
        true true (⟨[], [], 0, [], [], []⟩ : PState) = .ok st₁ ∧
      st₁.references_table = [("B", ⟨1, 3⟩), ("A", ⟨2, 3⟩)] ∧
      parse [("C", ([Tok.ref "${C}" "C" 1 3], true))] true true st₁ =
        .error (.atFailure "B") := by
  refine ⟨_, rfl, ?_, ?_⟩
  · rfl
  · rfl

end Dotenv
